import Mathlib

/-!
Verification development for the track canonicalization and anti-repeat core of the
mood-to-playlist frontend (src/frontend/src/App.jsx).

The JavaScript source is embedded shallowly:
  - the title normalizer (normalizeTitle, lines 88-100) with its four regex replace
    passes, modelled by a small backtracking matcher specialised to those patterns;
  - the track canonicalizer (baseTrackKey, lines 102-108);
  - the per-mood history store over localStorage (loadSeenForMood, lines 57-74, and
    saveSeenForMood, lines 76-85), with the stored JSON blob modelled as a JSON value
    tree and parse/write failures modelled explicitly;
  - the playlist assembly inside fetchPlaylist (lines 169-223): canonical dedup,
    in-place Fisher-Yates shuffle (randomness is a parameter), freshness filter,
    waiver fallback, retry without excludes, and the history update.

JS Sets are modelled as insertion-ordered lists deduplicated with SameValueZero;
composite values (arrays, objects) coming out of one JSON.parse are distinct
references in JS, so SameValueZero on them is modelled as never-equal.
Case mapping is modelled on the ASCII range, which covers every character class the
normalizer manipulates.
-/

/-! ## Character classes (JS regex semantics, by code point) -/

def wsCodes : List Nat :=
  [9, 10, 11, 12, 13, 32, 160, 0x1680, 0x2000, 0x2001, 0x2002, 0x2003, 0x2004, 0x2005,
   0x2006, 0x2007, 0x2008, 0x2009, 0x200a, 0x2028, 0x2029, 0x202f, 0x205f, 0x3000, 0xfeff]

/-- JS regex white space class. -/
def isJsWs (c : Char) : Bool := wsCodes.contains c.toNat

/-- JS regex word character, as used by word boundaries. -/
def isWordCh (c : Char) : Bool :=
  (97 ≤ c.toNat && c.toNat ≤ 122) || (65 ≤ c.toNat && c.toNat ≤ 90) ||
  (48 ≤ c.toNat && c.toNat ≤ 57) || c.toNat = 95

def isDigitCh (c : Char) : Bool := 48 ≤ c.toNat && c.toNat ≤ 57

/-- JS line terminators, which the dot does not match. -/
def isLineTerm (c : Char) : Bool :=
  c.toNat = 10 || c.toNat = 13 || c.toNat = 0x2028 || c.toNat = 0x2029

/-! ## Backtracking sub-pattern matchers

A sub-pattern matcher takes the character just before the remaining input (needed for
word boundaries) and the remaining input, and returns the list of lengths it can
consume, in backtracking priority order: the head is what the JS engine tries first,
so the head of the full pattern result is the match the engine commits to. -/

abbrev RP := Char → List Char → List Nat

def rpSeq (p q : RP) : RP := fun prev cs =>
  (p prev cs).flatMap (fun n =>
    (q ((cs.take n).getLastD prev) (cs.drop n)).map (fun m => n + m))

def rpAlt (p q : RP) : RP := fun prev cs => p prev cs ++ q prev cs

def rpEps : RP := fun _ _ => [0]

/-- Greedy optional: try consuming, then the empty alternative. -/
def rpOpt (p : RP) : RP := rpAlt p rpEps

def rpLit (w : String) : RP := fun _ cs =>
  if cs.take w.length = w.data then [w.length] else []

def rpChar (f : Char → Bool) : RP := fun _ cs =>
  match cs with
  | c :: _ => if f c then [1] else []
  | [] => []

/-- Length of the longest run of characters satisfying f at the head of the list. -/
def runLen (f : Char → Bool) : List Char → Nat
  | c :: cs => if f c then runLen f cs + 1 else 0
  | [] => 0

/-- Greedy star over a character class: longest first. -/
def rpStar (f : Char → Bool) : RP := fun _ cs => (List.range (runLen f cs + 1)).reverse

/-- Greedy plus over a character class: longest first, at least one. -/
def rpPlus (f : Char → Bool) : RP := fun _ cs =>
  ((List.range (runLen f cs)).reverse).map (· + 1)

/-- Word boundary: zero width, matches when exactly one side is a word character. -/
def rpBound : RP := fun prev cs =>
  let nextWord := match cs with
    | c :: _ => isWordCh c
    | [] => false
  if isWordCh prev ≠ nextWord then [0] else []

/-- End anchor (no multiline flag). -/
def rpEnd : RP := fun _ cs => if cs.isEmpty then [0] else []

/-- Greedy dot star (dot does not cross line terminators). -/
def rpDotStar : RP := fun _ cs => (List.range (runLen (fun c => !isLineTerm c) cs + 1)).reverse

/-- Exactly four digits. -/
def rpDigits4 : RP := fun _ cs =>
  if (cs.take 4).length = 4 && (cs.take 4).all isDigitCh then [4] else []

/-! ## Global replace

JS String.replace with the g flag: scan left to right; at each position try the
pattern; on a match emit the replacement and continue right after the match (the
replacement text is never rescanned). None of the patterns below can match the empty
string, so each match consumes at least one character and fuel equal to the input
length always suffices; the fuel-exhausted branch is unreachable. -/

def replScanF (m : Char → List Char → Option Nat) (rep : List Char) :
    Nat → Char → List Char → List Char
  | _, _, [] => []
  | 0, _, l => l
  | fuel+1, prev, c :: cs =>
    match m prev (c :: cs) with
    | some (Nat.succ n) =>
      rep ++ replScanF m rep fuel (((c :: cs).take (n+1)).getLastD prev) (cs.drop n)
    | _ => c :: replScanF m rep fuel c cs

def replScan (m : Char → List Char → Option Nat) (rep : List Char) (prev : Char)
    (l : List Char) : List Char :=
  replScanF m rep l.length prev l

def jsReplaceAll (p : RP) (rep : String) (s : String) : String :=
  ⟨replScan (fun prev cs => (p prev cs).head?) rep.data (Char.ofNat 0) s.data⟩

/-! ## The three replace patterns of normalizeTitle (App.jsx lines 92-96) -/

/-- Version-descriptor vocabulary, alternatives in source order:
live, acoustic, remaster optionally followed by ed and a year, demo, session,
radio edit, edit, version, mono, stereo, deluxe, extended, re-recorded, remix. -/
def rpVocab : RP :=
  rpAlt (rpLit "live") <| rpAlt (rpLit "acoustic") <|
  rpAlt (rpSeq (rpLit "remaster") (rpSeq (rpOpt (rpLit "ed"))
          (rpOpt (rpSeq (rpStar isJsWs) rpDigits4)))) <|
  rpAlt (rpLit "demo") <| rpAlt (rpLit "session") <|
  rpAlt (rpSeq (rpLit "radio") (rpSeq (rpStar isJsWs) (rpLit "edit"))) <|
  rpAlt (rpLit "edit") <| rpAlt (rpLit "version") <| rpAlt (rpLit "mono") <|
  rpAlt (rpLit "stereo") <| rpAlt (rpLit "deluxe") <| rpAlt (rpLit "extended") <|
  rpAlt (rpSeq (rpLit "re") (rpSeq (rpOpt (rpChar (fun c => c.toNat = 45 || isJsWs c)))
          (rpLit "recorded")))
        (rpLit "remix")

/-- Opening separator of the featuring pattern: left paren or one of the three dashes. -/
def isSepFeat (c : Char) : Bool :=
  c.toNat = 40 || c.toNat = 45 || c.toNat = 0x2013 || c.toNat = 0x2014

/-- Characters excluded from the credit body: right paren and the three dashes. -/
def isExclFeat (c : Char) : Bool :=
  c.toNat = 41 || c.toNat = 45 || c.toNat = 0x2013 || c.toNat = 0x2014

/-- Featuring/credit pattern of line 92. -/
def rpPat1 : RP :=
  rpSeq (rpStar isJsWs) <| rpSeq (rpOpt (rpChar isSepFeat)) <| rpSeq (rpStar isJsWs) <|
  rpSeq (rpAlt (rpLit "feat.") (rpAlt (rpLit "featuring") (rpLit "with"))) <|
  rpSeq (rpPlus isJsWs) <|
  rpSeq (rpPlus (fun c => !isExclFeat c)) (rpOpt (rpChar (fun c => c.toNat = 41)))

def isOpenBr (c : Char) : Bool := c.toNat = 40 || c.toNat = 91 || c.toNat = 123

def isCloseBr (c : Char) : Bool := c.toNat = 41 || c.toNat = 93 || c.toNat = 125

/-- Bracketed version-descriptor pattern of line 94. -/
def rpPat2 : RP :=
  rpSeq (rpStar isJsWs) <| rpSeq (rpChar isOpenBr) <|
  rpSeq (rpStar (fun c => !isCloseBr c)) <| rpSeq rpBound <| rpSeq rpVocab <|
  rpSeq rpBound <| rpSeq (rpStar (fun c => !isCloseBr c)) <|
  rpSeq (rpChar isCloseBr) (rpStar isJsWs)

/-- Trailing separator class of line 96: the three dashes, pipe, bullet. -/
def isSepDash (c : Char) : Bool :=
  c.toNat = 45 || c.toNat = 0x2013 || c.toNat = 0x2014 || c.toNat = 124 || c.toNat = 0x2022

/-- Dash-suffixed version-descriptor pattern of line 96. -/
def rpPat3 : RP :=
  rpSeq (rpStar isJsWs) <| rpSeq (rpChar isSepDash) <| rpSeq (rpStar isJsWs) <|
  rpSeq rpBound <| rpSeq rpVocab <| rpSeq rpBound <| rpSeq rpDotStar rpEnd

/-! ## The title normalizer (App.jsx lines 88-100) -/

/-- Characters kept by the final filter of line 98: lowercase letters, digits,
white space, apostrophe. -/
def allowedCh (c : Char) : Bool :=
  (97 ≤ c.toNat && c.toNat ≤ 122) || (48 ≤ c.toNat && c.toNat ≤ 57) ||
  isJsWs c || c.toNat = 39

def toLowerCh (c : Char) : Char :=
  if 65 ≤ c.toNat && c.toNat ≤ 90 then Char.ofNat (c.toNat + 32) else c

def jsToLower (s : String) : String := ⟨s.data.map toLowerCh⟩

def featRemove (s : String) : String := jsReplaceAll rpPat1 "" s

def bracketRemove (s : String) : String := jsReplaceAll rpPat2 " " s

def dashRemove (s : String) : String := jsReplaceAll rpPat3 " " s

/-- Line 98, first replace: every character outside the allowed class becomes a space. -/
def stripPunct (s : String) : String :=
  ⟨s.data.map (fun c => if allowedCh c then c else Char.ofNat 32)⟩

/-- Line 98, second replace: each run of two or more white space characters becomes a
single space. A single white space character is left as it is. -/
def collapseF : Nat → List Char → List Char
  | _, [] => []
  | 0, l => l
  | fuel+1, c :: cs =>
    if isJsWs c && runLen isJsWs cs ≥ 1 then
      Char.ofNat 32 :: collapseF fuel (cs.drop (runLen isJsWs cs))
    else
      c :: collapseF fuel cs

def collapseList (l : List Char) : List Char := collapseF l.length l

def collapseWs (s : String) : String := ⟨collapseList s.data⟩

/-- Removes the trailing run of white space. -/
def trimRightList : List Char → List Char
  | [] => []
  | c :: cs =>
    match trimRightList cs with
    | [] => if isJsWs c then [] else [c]
    | r => c :: r

/-- JS String.trim: strips white space from both ends. -/
def jsTrim (s : String) : String := ⟨trimRightList (s.data.dropWhile isJsWs)⟩

/-- The title normalizer, App.jsx lines 88-100. An empty (falsy) input returns the
empty string; otherwise lowercase, strip featuring credits, strip bracketed and
dash-suffixed version descriptors, drop disallowed characters, collapse white space
runs and trim. -/
def normalizeTitle (raw : String) : String :=
  if raw = "" then ""
  else jsTrim (collapseWs (stripPunct (dashRemove (bracketRemove (featRemove (jsToLower raw))))))

/-! ## Tracks and the canonical key (App.jsx lines 102-108) -/

/-- The artists field of a track as delivered by the backend: an array of names, a
bare scalar name, or missing. -/
inductive ArtistsVal where
  | arr (xs : List String)
  | scalar (s : String)
  | absent
deriving DecidableEq

/-- A candidate track. A missing or falsy name is modelled as the empty string, which
is what the call site normalizeTitle(t?.name || ...) produces; a missing id is none. -/
structure Track where
  id : Option String
  name : String
  artists : ArtistsVal
deriving DecidableEq

/-- Array.isArray(t?.artists) ? t.artists[0] : t?.artists, with a falsy result
replaced by the empty string. -/
def primaryArtistRaw : ArtistsVal → String
  | .arr xs => xs.headD ""
  | .scalar s => s
  | .absent => ""

/-- The canonical key, App.jsx lines 102-108: lowercased trimmed primary artist and
normalized title joined by an em dash, or the empty string when the normalized title
is empty (unkeyable). -/
def baseTrackKey (t : Track) : String :=
  let title := normalizeTitle t.name
  let artist := jsTrim (jsToLower (primaryArtistRaw t.artists))
  if title = "" then "" else artist ++ "—" ++ title

/-! ## JSON values and the persisted history blob -/

/-- A parsed JSON value. Object field lists come from JSON.parse, so they carry no
duplicate keys. -/
inductive JValue where
  | null
  | jbool (b : Bool)
  | jnum (n : Int)
  | jstr (s : String)
  | jarr (xs : List JValue)
  | jobj (fields : List (String × JValue))

/-- SameValueZero, the equality JS Sets use. Arrays and objects are compared by
reference; distinct values inside one parsed blob are distinct references, so the
comparison is modelled as false on composites. -/
def svz : JValue → JValue → Bool
  | .null, .null => true
  | .jbool a, .jbool b => a == b
  | .jnum a, .jnum b => a == b
  | .jstr a, .jstr b => a == b
  | _, _ => false

/-- Set membership test, Set.prototype.has. -/
def svzMem (l : List JValue) (x : JValue) : Bool := l.any (fun y => svz y x)

/-- The Set constructor over an array: keeps the first occurrence of each value,
in order. -/
def dedupFirstAux : List JValue → List JValue → List JValue
  | _, [] => []
  | acc, x :: xs =>
    if svzMem acc x then dedupFirstAux acc xs else x :: dedupFirstAux (x :: acc) xs

def dedupFirst (l : List JValue) : List JValue := dedupFirstAux [] l

/-- Set.prototype.add: appends unless already present. -/
def setAddJ (l : List JValue) (x : JValue) : List JValue :=
  if svzMem l x then l else l ++ [x]

/-- The in-memory seen record for one mood key: two insertion-ordered sets. -/
structure SeenRecord where
  keys : List JValue
  ids : List JValue

/-- The localStorage slot for the history blob: missing, unparseable, or a parsed
JSON value. -/
inductive Blob where
  | absent
  | corrupt
  | readable (j : JValue)

def jsTruthy : JValue → Bool
  | .null => false
  | .jbool b => b
  | .jnum n => n != 0
  | .jstr s => s != ""
  | .jarr _ => true
  | .jobj _ => true

/-- Property read obj[key] on a parsed JSON value; an undefined result is none. -/
def jsGet : JValue → String → Option JValue
  | .jobj fs, k => List.lookup k fs
  | _, _ => none

/-- Property write obj[key] = v: replaces the binding in place if the key exists,
appends otherwise. -/
def upsert : List (String × JValue) → String → JValue → List (String × JValue)
  | [], k, v => [(k, v)]
  | (k2, v2) :: fs, k, v =>
    if k2 = k then (k, v) :: fs else (k2, v2) :: upsert fs k v

/-- obj[key] = v on an arbitrary parsed value. Assignment to an array object adds a
non-index property that JSON.stringify then drops, so the stored array is unchanged;
assignment to a primitive throws a TypeError in strict mode (modules are strict). -/
def jsSetProp : JValue → String → JValue → Option JValue
  | .jobj fs, k, v => some (.jobj (upsert fs k v))
  | .jarr xs, _, _ => some (.jarr xs)
  | _, _, _ => none

/-! ## The session history store (App.jsx lines 57-85) -/

/-- loadSeenForMood, lines 57-74. Total: corruption degrades to the empty record. -/
def loadSeenForMood (b : Blob) (key : String) : SeenRecord :=
  match b with
  | .absent => ⟨[], []⟩
  | .corrupt => ⟨[], []⟩
  | .readable j =>
    let obj := if jsTruthy j then j else .jobj []
    match jsGet obj key with
    | some (.jarr xs) => ⟨dedupFirst xs, []⟩
    | e =>
      let ks := match e.bind (fun x => jsGet x "keys") with
        | some (.jarr xs) => xs
        | _ => []
      let is := match e.bind (fun x => jsGet x "ids") with
        | some (.jarr xs) => xs
        | _ => []
      ⟨dedupFirst ks, dedupFirst is⟩

/-- Array.prototype.slice with argument -800: the last 800 elements. -/
def takeLast (n : Nat) (l : List α) : List α := l.drop (l.length - n)

/-- The entry written under the mood key by saveSeenForMood line 82. -/
def entryValue (seen : SeenRecord) : JValue :=
  .jobj [("keys", .jarr (takeLast 800 seen.keys)), ("ids", .jarr (takeLast 800 seen.ids))]

/-- The body of the try block of saveSeenForMood, lines 78-83. An error is a thrown
exception: reading a corrupt blob throws in JSON.parse, assigning to a primitive
throws, and setItem throws when writeOk is false (quota exceeded or storage gone). -/
def saveSeenForMoodE (writeOk : Bool) (b : Blob) (key : String) (seen : SeenRecord) :
    Except Unit Blob :=
  match b with
  | .corrupt => .error ()
  | .absent =>
    match jsSetProp (.jobj []) key (entryValue seen) with
    | none => .error ()
    | some obj => if writeOk then .ok (.readable obj) else .error ()
  | .readable j =>
    let obj0 := if jsTruthy j then j else .jobj []
    match jsSetProp obj0 key (entryValue seen) with
    | none => .error ()
    | some obj => if writeOk then .ok (.readable obj) else .error ()

/-- saveSeenForMood, lines 76-85: the catch block swallows every error, leaving the
stored blob as it was. -/
def saveSeenForMood (writeOk : Bool) (b : Blob) (key : String) (seen : SeenRecord) : Blob :=
  match saveSeenForMoodE writeOk b key seen with
  | .ok b2 => b2
  | .error _ => b

/-- The entry stored under a mood key, for stating frame properties. -/
def storedEntry (b : Blob) (key : String) : Option JValue :=
  match b with
  | .readable j => jsGet j key
  | _ => none

/-! ## The playlist assembly (fetchPlaylist, App.jsx lines 169-223) -/

/-- The canonical dedup pass of lines 173-180 and 200-207: first occurrence of each
non-empty key wins, unkeyable tracks are dropped. The accumulator models the local
Set of keys already seen. -/
def dedupAux (acc : List String) : List Track → List Track
  | [] => []
  | t :: ts =>
    if baseTrackKey t = "" ∨ baseTrackKey t ∈ acc then dedupAux acc ts
    else t :: dedupAux (baseTrackKey t :: acc) ts

def dedupByBaseKey (ts : List Track) : List Track := dedupAux [] ts

/-- One swap of the in-place shuffle; both indices are in range whenever it is
reached, the out-of-range branch only keeps the function total. -/
def swapIdx (l : List α) (i j : Nat) : List α :=
  if h : i < l.length ∧ j < l.length then
    (l.set i (l.get ⟨j, h.2⟩)).set j (l.get ⟨i, h.1⟩)
  else l

/-- The Fisher-Yates loop of lines 182-185: i runs from length - 1 down to 1 and the
drawn index is some j with 0 ≤ j ≤ i; the random draws are a parameter r, reduced
mod i + 1 exactly as floor(random times i + 1) lands in that range. -/
def fyGo (r : Nat → Nat) : Nat → List α → List α
  | 0, l => l
  | i+1, l => fyGo r i (swapIdx l (i+1) (r (i+1) % (i+2)))

def jsShuffle (r : Nat → Nat) (l : List α) : List α := fyGo r (l.length - 1) l

/-- The freshness predicate of line 188: neither the canonical key nor the id has
been seen for this mood. -/
def freshTrack (seen : SeenRecord) (t : Track) : Bool :=
  if svzMem seen.keys (.jstr (baseTrackKey t)) then false
  else
    match t.id with
    | some s => !svzMem seen.ids (.jstr s)
    | none => true

/-- The track-list assembly of lines 171-215: dedup, shuffle, freshness filter,
waiver fallback to the whole shuffled pool, and, only when that is still empty, the
retry on a second pool fetched without excludes (none models a failed second fetch,
lines 192-215). -/
def assembleTracks (seen : SeenRecord) (pool1 : List Track) (pool2 : Option (List Track))
    (r1 r2 : Nat → Nat) : List Track :=
  let uniq := dedupByBaseKey pool1
  let shuffled := jsShuffle r1 uniq
  let fresh := shuffled.filter (freshTrack seen)
  let finalTracks := if fresh.length ≠ 0 then fresh else shuffled
  if finalTracks.length = 0 then
    match pool2 with
    | some p2 => jsShuffle r2 (dedupByBaseKey p2)
    | none => finalTracks
  else finalTracks

/-- The history update of lines 218-222: for each shown track add its key (when
truthy) and its id (when truthy). -/
def updateSeen (seen : SeenRecord) (ts : List Track) : SeenRecord :=
  ts.foldl (fun r t =>
    let r1 :=
      if baseTrackKey t ≠ "" then { r with keys := setAddJ r.keys (.jstr (baseTrackKey t)) }
      else r
    match t.id with
    | some s => if s ≠ "" then { r1 with ids := setAddJ r1.ids (.jstr s) } else r1
    | none => r1) seen

/-- One whole generate action on the history store: load, assemble, record, save
(lines 187-223). Returns the shown list and the new stored blob. -/
def runGenerate (writeOk : Bool) (b : Blob) (key : String) (pool1 : List Track)
    (pool2 : Option (List Track)) (r1 r2 : Nat → Nat) : List Track × Blob :=
  let seen := loadSeenForMood b key
  let final := assembleTracks seen pool1 pool2 r1 r2
  (final, saveSeenForMood writeOk b key (updateSeen seen final))

/-! ## Scenario scaffolding for the bounded-history claim -/

/-- Adding a batch of canonical keys to a seen record, as the history update does for
a run whose shown tracks carry these keys. -/
def addKeys (seen : SeenRecord) (ks : List String) : SeenRecord :=
  ks.foldl (fun r s => { r with keys := setAddJ r.keys (.jstr s) }) seen

/-- Keys number 100 i through 100 i + 99 out of a supply f of distinct keys. -/
def batchKeys (f : Nat → String) (i : Nat) : List String :=
  (List.range 100).map (fun j => f (100 * i + j))

/-- n generate actions against the same mood key, starting from empty storage, the
i-th adding the 100 fresh keys of batch i: load, add, save each round. -/
def runBatches (f : Nat → String) (key : String) : Nat → Blob
  | 0 => Blob.absent
  | i+1 =>
    let b := runBatches f key i
    saveSeenForMood true b key (addKeys (loadSeenForMood b key) (batchKeys f i))

/-- The blob states the app itself ever writes: nothing yet, or a parsed object. -/
def blobWF (b : Blob) : Prop :=
  b = .absent ∨ ∃ fs, b = .readable (.jobj fs)

/-- The first m keys of the supply f, as stored JSON strings. -/
def allKeysJ (f : Nat → String) (m : Nat) : List JValue :=
  ((List.range m).map f).map .jstr

/-- No two adjacent white space characters, the shape the collapse pass guarantees. -/
def noAdjWs : List Char → Prop
  | c :: d :: r => ¬(isJsWs c = true ∧ isJsWs d = true) ∧ noAdjWs (d :: r)
  | _ => True

/-! ## Lemmas about SameValueZero sets -/

theorem svz_jstr_iff (y : JValue) (s : String) : svz y (.jstr s) = true ↔ y = .jstr s := by
  cases y <;> simp [svz]

theorem svzMem_jstr_iff (l : List JValue) (s : String) :
    svzMem l (.jstr s) = true ↔ JValue.jstr s ∈ l := by
  simp only [svzMem, List.any_eq_true, svz_jstr_iff]
  constructor
  · rintro ⟨y, hy, rfl⟩; exact hy
  · intro h; exact ⟨_, h, rfl⟩

theorem setAddJ_not_mem {l : List JValue} {s : String} (h : JValue.jstr s ∉ l) :
    setAddJ l (.jstr s) = l ++ [.jstr s] := by
  have : svzMem l (.jstr s) = false := by
    rw [← Bool.not_eq_true, svzMem_jstr_iff]; exact h
  simp [setAddJ, this]

theorem dedupFirstAux_eq_self (l : List JValue) : ∀ acc,
    List.Pairwise (fun a b => svz a b = false) l →
    (∀ y ∈ acc, ∀ x ∈ l, svz y x = false) →
    dedupFirstAux acc l = l := by
  induction l with
  | nil => intro acc _ _; rfl
  | cons x xs ih =>
    intro acc hp hacc
    have hm : svzMem acc x = false := by
      rw [svzMem, List.any_eq_false]
      intro y hy
      simp [hacc y hy x (List.mem_cons_self x xs)]
    rw [dedupFirstAux, hm]
    simp only [Bool.false_eq_true, if_false]
    congr 1
    apply ih
    · exact hp.tail
    · intro y hy b hb
      rcases List.mem_cons.mp hy with rfl | hy2
      · exact (List.pairwise_cons.mp hp).1 b hb
      · exact hacc y hy2 b (List.mem_cons_of_mem _ hb)

theorem dedupFirst_map_jstr {ss : List String} (h : ss.Nodup) :
    dedupFirst (ss.map .jstr) = ss.map .jstr := by
  apply dedupFirstAux_eq_self
  · refine List.pairwise_map.mpr (h.imp ?_)
    intro a b hne
    simp [svz, hne]
  · intro y hy; cases hy

/-! ## Lemmas about object property update -/

theorem lookup_upsert_eq (fs : List (String × JValue)) (k : String) (v : JValue) :
    List.lookup k (upsert fs k v) = some v := by
  induction fs with
  | nil => simp [upsert, List.lookup]
  | cons p fs ih =>
    obtain ⟨k2, v2⟩ := p
    by_cases h : k2 = k
    · subst h; simp [upsert, List.lookup]
    · have hb : (k == k2) = false := by
        rw [Bool.eq_false_iff]
        intro hk
        exact h (beq_iff_eq.mp hk).symm
      simp [upsert, h, List.lookup, hb, ih]

theorem lookup_upsert_ne {k k2 : String} (h : k2 ≠ k) (fs : List (String × JValue))
    (v : JValue) : List.lookup k2 (upsert fs k v) = List.lookup k2 fs := by
  induction fs with
  | nil =>
    have hb : (k2 == k) = false := by
      rw [Bool.eq_false_iff]; intro hk; exact h (beq_iff_eq.mp hk)
    simp [upsert, List.lookup, hb]
  | cons p fs ih =>
    obtain ⟨k3, v3⟩ := p
    by_cases h3 : k3 = k
    · subst h3
      have hb : (k2 == k3) = false := by
        rw [Bool.eq_false_iff]; intro hk; exact h (beq_iff_eq.mp hk)
      simp [upsert, List.lookup, hb]
    · simp [upsert, h3, List.lookup, ih]

/-! ## Lemmas about the canonical dedup pass -/

theorem dedupAux_key_free : ∀ (ts : List Track) (acc : List String) (t : Track),
    t ∈ dedupAux acc ts → baseTrackKey t ∉ acc ∧ baseTrackKey t ≠ "" := by
  intro ts
  induction ts with
  | nil => intro acc t h; cases h
  | cons u ts ih =>
    intro acc t h
    rw [dedupAux] at h
    split at h
    · exact ih acc t h
    · rename_i hcond
      rcases List.mem_cons.mp h with rfl | h2
      · constructor
        · intro hmem; exact hcond (Or.inr hmem)
        · intro he; exact hcond (Or.inl he)
      · have := ih _ t h2
        exact ⟨fun hmem => this.1 (List.mem_cons_of_mem _ hmem), this.2⟩

theorem dedupAux_nodup_keys : ∀ (ts : List Track) (acc : List String),
    ((dedupAux acc ts).map baseTrackKey).Nodup := by
  intro ts
  induction ts with
  | nil => intro acc; simp [dedupAux]
  | cons u ts ih =>
    intro acc
    rw [dedupAux]
    split
    · exact ih acc
    · rw [List.map_cons, List.nodup_cons]
      refine ⟨?_, ih _⟩
      intro hmem
      rcases List.mem_map.mp hmem with ⟨t, ht, hkey⟩
      have := (dedupAux_key_free ts _ t ht).1
      exact this (hkey ▸ List.mem_cons_self _ _)

theorem dedupAux_sublist : ∀ (ts : List Track) (acc : List String),
    (dedupAux acc ts).Sublist ts := by
  intro ts
  induction ts with
  | nil => intro acc; simp [dedupAux]
  | cons u ts ih =>
    intro acc
    rw [dedupAux]
    split
    · exact (ih acc).cons u
    · exact (ih _).cons₂ u

theorem dedupAux_covers : ∀ (ts : List Track) (acc : List String) (t : Track),
    t ∈ ts → baseTrackKey t ≠ "" → baseTrackKey t ∉ acc →
    ∃ u ∈ dedupAux acc ts, baseTrackKey u = baseTrackKey t := by
  intro ts
  induction ts with
  | nil => intro acc t h; cases h
  | cons u ts ih =>
    intro acc t ht hne hnacc
    rw [dedupAux]
    split
    · rename_i hcond
      rcases List.mem_cons.mp ht with rfl | h2
      · exact absurd hcond (by simp [hne, hnacc])
      · exact ih acc t h2 hne hnacc
    · rename_i hcond
      by_cases hk : baseTrackKey u = baseTrackKey t
      · exact ⟨u, List.mem_cons_self _ _, hk⟩
      · rcases List.mem_cons.mp ht with rfl | h2
        · exact absurd rfl hk
        · obtain ⟨w, hw, hwk⟩ := ih _ t h2 hne (by
            intro hmem
            rcases List.mem_cons.mp hmem with he | hmem2
            · exact hk he.symm
            · exact hnacc hmem2)
          exact ⟨w, List.mem_cons_of_mem _ hw, hwk⟩

theorem dedupAux_first_occ : ∀ (ts : List Track) (acc : List String) (t : Track),
    t ∈ dedupAux acc ts →
    (ts.filter (fun u => baseTrackKey u == baseTrackKey t)).head? = some t := by
  intro ts
  induction ts with
  | nil => intro acc t h; cases h
  | cons u ts ih =>
    intro acc t h
    rw [dedupAux] at h
    split at h
    · rename_i hcond
      have hfree := dedupAux_key_free ts acc t h
      have hne : baseTrackKey u ≠ baseTrackKey t := by
        rcases hcond with he | hmem
        · rw [he]; exact fun hc => hfree.2 hc.symm
        · exact fun hc => hfree.1 (hc ▸ hmem)
      have hb : (baseTrackKey u == baseTrackKey t) = false := by
        rw [Bool.eq_false_iff]; intro hc; exact hne (beq_iff_eq.mp hc)
      rw [List.filter_cons, hb]
      simp only [Bool.false_eq_true, if_false]
      exact ih acc t h
    · rename_i hcond
      rcases List.mem_cons.mp h with rfl | h2
      · rw [List.filter_cons]
        simp
      · have hfree := dedupAux_key_free ts _ t h2
        have hne : baseTrackKey u ≠ baseTrackKey t := by
          intro hc
          exact hfree.1 (hc ▸ List.mem_cons_self _ _)
        have hb : (baseTrackKey u == baseTrackKey t) = false := by
          rw [Bool.eq_false_iff]; intro hc; exact hne (beq_iff_eq.mp hc)
        rw [List.filter_cons, hb]
        simp only [Bool.false_eq_true, if_false]
        exact ih _ t h2

/-! ## Permutation lemmas for the in-place shuffle -/

theorem cons_get_set_perm {α : Type} : ∀ (xs : List α) (k : Nat) (h : k < xs.length) (x : α),
    (xs.get ⟨k, h⟩ :: xs.set k x).Perm (x :: xs) := by
  intro xs
  induction xs with
  | nil => intro k h; cases h
  | cons y ys ih =>
    intro k h x
    match k with
    | 0 => simpa using List.Perm.swap x y ys
    | Nat.succ k2 =>
      simp only [List.get_cons_succ, List.set_cons_succ]
      have hk2 : k2 < ys.length := by
        simpa using Nat.lt_of_succ_lt_succ h
      refine List.Perm.trans (List.Perm.swap _ _ _) ?_
      refine List.Perm.trans (List.Perm.cons y (ih k2 hk2 x)) ?_
      exact List.Perm.swap x y ys

theorem set_set_perm {α : Type} : ∀ (l : List α) (i j : Nat) (hi : i < l.length)
    (hj : j < l.length), ((l.set i (l.get ⟨j, hj⟩)).set j (l.get ⟨i, hi⟩)).Perm l := by
  intro l
  induction l with
  | nil => intro i j hi; cases hi
  | cons x xs ih =>
    intro i j hi hj
    match i, j with
    | 0, 0 => simp
    | 0, Nat.succ k =>
      simp only [List.get_cons_succ, List.get_cons_zero, List.set_cons_zero,
        List.set_cons_succ]
      exact cons_get_set_perm xs k (by simpa using Nat.lt_of_succ_lt_succ hj) x
    | Nat.succ m, 0 =>
      simp only [List.get_cons_succ, List.get_cons_zero, List.set_cons_zero,
        List.set_cons_succ]
      exact cons_get_set_perm xs m (by simpa using Nat.lt_of_succ_lt_succ hi) x
    | Nat.succ m, Nat.succ k =>
      simp only [List.get_cons_succ, List.set_cons_succ]
      exact List.Perm.cons x (ih m k (by simpa using Nat.lt_of_succ_lt_succ hi)
        (by simpa using Nat.lt_of_succ_lt_succ hj))

theorem swapIdx_perm {α : Type} (l : List α) (i j : Nat) : (swapIdx l i j).Perm l := by
  rw [swapIdx]
  split
  · rename_i h
    exact set_set_perm l i j h.1 h.2
  · exact List.Perm.refl l

theorem fyGo_perm {α : Type} (r : Nat → Nat) : ∀ (i : Nat) (l : List α), (fyGo r i l).Perm l := by
  intro i
  induction i with
  | zero => intro l; exact List.Perm.refl l
  | succ i ih =>
    intro l
    exact (ih _).trans (swapIdx_perm l (i+1) (r (i+1) % (i+2)))

theorem jsShuffle_perm {α : Type} (r : Nat → Nat) (l : List α) : (jsShuffle r l).Perm l :=
  fyGo_perm r (l.length - 1) l

/-! ## Key distinctness through the assembly pipeline -/

theorem dedup_nodup_keys (ts : List Track) : ((dedupByBaseKey ts).map baseTrackKey).Nodup :=
  dedupAux_nodup_keys ts []

theorem shuffled_dedup_nodup_keys (r : Nat → Nat) (ts : List Track) :
    ((jsShuffle r (dedupByBaseKey ts)).map baseTrackKey).Nodup := by
  have hperm := (jsShuffle_perm r (dedupByBaseKey ts)).map baseTrackKey
  exact hperm.symm.nodup (dedup_nodup_keys ts)

theorem assembleTracks_nodup_keys (seen : SeenRecord) (pool1 : List Track)
    (pool2 : Option (List Track)) (r1 r2 : Nat → Nat) :
    ((assembleTracks seen pool1 pool2 r1 r2).map baseTrackKey).Nodup := by
  simp only [assembleTracks]
  have hsh := shuffled_dedup_nodup_keys r1 pool1
  have hfil : ((List.filter (freshTrack seen) (jsShuffle r1 (dedupByBaseKey pool1))).map
      baseTrackKey).Nodup :=
    hsh.sublist ((List.filter_sublist _).map baseTrackKey)
  split
  · exact hfil
  · split
    · cases pool2 with
      | none => exact hsh
      | some p2 => exact shuffled_dedup_nodup_keys r2 p2
    · exact hsh

/-- claim C1: for every candidate pool, seen record and random draws, the assembled
output list, on both the primary and the retry path, never holds two tracks with the
same canonical key: the set of canonical keys over the returned tracks has size equal
to the list length. -/
theorem claim1_output_keys_distinct (seen : SeenRecord) (pool1 : List Track)
    (pool2 : Option (List Track)) (r1 r2 : Nat → Nat) :
    ((assembleTracks seen pool1 pool2 r1 r2).map baseTrackKey).Nodup ∧
    ((assembleTracks seen pool1 pool2 r1 r2).map baseTrackKey).toFinset.card
      = (assembleTracks seen pool1 pool2 r1 r2).length := by
  refine ⟨assembleTracks_nodup_keys seen pool1 pool2 r1 r2, ?_⟩
  rw [List.toFinset_card_of_nodup (assembleTracks_nodup_keys seen pool1 pool2 r1 r2)]
  exact List.length_map _ _

/-- claim C9: the two example titles both normalize to yesterday, and two tracks
bearing them with the same primary artist receive the same canonical key. -/
theorem claim9_normalize_examples :
    normalizeTitle "Yesterday (Live at Royal Albert Hall)" = "yesterday"
    ∧ normalizeTitle "Yesterday - Remastered 2009" = "yesterday"
    ∧ baseTrackKey ⟨some "1", "Yesterday (Live at Royal Albert Hall)", .arr ["The Beatles"]⟩
      = baseTrackKey ⟨some "2", "Yesterday - Remastered 2009", .arr ["The Beatles"]⟩ := by
  refine ⟨by decide, by decide, by decide⟩

/-- claim C3 counterexample: the seen record holds the canonical key of track one and
the id of track two; track two has a different canonical key and is not the only
candidate, yet the assembled output contains track one, because the freshness filter
rejected every candidate and the waiver returned the whole deduplicated pool. -/
theorem claim3_counterexample :
    JValue.jstr (baseTrackKey ⟨some "1", "Song A", ArtistsVal.arr ["X"]⟩)
      ∈ (SeenRecord.mk [JValue.jstr "x—song a"] [JValue.jstr "2"]).keys
    ∧ baseTrackKey ⟨some "2", "Song B", ArtistsVal.arr ["Y"]⟩
      ≠ baseTrackKey ⟨some "1", "Song A", ArtistsVal.arr ["X"]⟩
    ∧ assembleTracks (SeenRecord.mk [JValue.jstr "x—song a"] [JValue.jstr "2"])
        [⟨some "1", "Song A", ArtistsVal.arr ["X"]⟩, ⟨some "2", "Song B", ArtistsVal.arr ["Y"]⟩]
        none (fun _ => 0) (fun _ => 0)
      = [⟨some "2", "Song B", ArtistsVal.arr ["Y"]⟩, ⟨some "1", "Song A", ArtistsVal.arr ["X"]⟩]
    ∧ (⟨some "1", "Song A", ArtistsVal.arr ["X"]⟩ : Track)
      ∈ assembleTracks (SeenRecord.mk [JValue.jstr "x—song a"] [JValue.jstr "2"])
        [⟨some "1", "Song A", ArtistsVal.arr ["X"]⟩, ⟨some "2", "Song B", ArtistsVal.arr ["Y"]⟩]
        none (fun _ => 0) (fun _ => 0) := by
  refine ⟨?_, by decide, by decide, ?_⟩
  · rw [show baseTrackKey ⟨some "1", "Song A", ArtistsVal.arr ["X"]⟩ = "x—song a" from by decide]
    exact List.mem_singleton.mpr rfl
  · rw [show assembleTracks (SeenRecord.mk [JValue.jstr "x—song a"] [JValue.jstr "2"])
        [⟨some "1", "Song A", ArtistsVal.arr ["X"]⟩, ⟨some "2", "Song B", ArtistsVal.arr ["Y"]⟩]
        none (fun _ => 0) (fun _ => 0)
      = [⟨some "2", "Song B", ArtistsVal.arr ["Y"]⟩, ⟨some "1", "Song A", ArtistsVal.arr ["X"]⟩]
      from by decide]
    exact List.mem_cons_of_mem _ (List.mem_singleton.mpr rfl)

/-- claim C3 as amended: when the seen record holds the canonical key of a track and
at least one candidate in the deduplicated pool is fresh, the assembly never returns
that track; only when no candidate at all is fresh does the waiver return the whole
deduplicated pool, which can include it (and does return it when it is the only
candidate). -/
theorem claim3_freshness_bias (seen : SeenRecord) (pool1 : List Track)
    (pool2 : Option (List Track)) (r1 r2 : Nat → Nat) (t : Track)
    (hseen : JValue.jstr (baseTrackKey t) ∈ seen.keys)
    (hfresh : ∃ u ∈ dedupByBaseKey pool1, freshTrack seen u = true) :
    t ∉ assembleTracks seen pool1 pool2 r1 r2 := by
  intro hmem
  obtain ⟨u, hu, hfu⟩ := hfresh
  have humem : u ∈ jsShuffle r1 (dedupByBaseKey pool1) :=
    ((jsShuffle_perm r1 _).mem_iff).mpr hu
  have hne : (List.filter (freshTrack seen) (jsShuffle r1 (dedupByBaseKey pool1))).length ≠ 0 := by
    intro h0
    rw [List.length_eq_zero, List.filter_eq_nil_iff] at h0
    exact h0 u humem hfu
  have hout : assembleTracks seen pool1 pool2 r1 r2
      = List.filter (freshTrack seen) (jsShuffle r1 (dedupByBaseKey pool1)) := by
    simp only [assembleTracks]
    rw [if_pos hne, if_neg hne]
  rw [hout] at hmem
  have hft : freshTrack seen t = true := List.of_mem_filter hmem
  have hsv : svzMem seen.keys (.jstr (baseTrackKey t)) = true := (svzMem_jstr_iff _ _).mpr hseen
  simp [freshTrack, hsv] at hft

theorem claim3_freshness_bias_witness :
    JValue.jstr (baseTrackKey ⟨some "1", "Song A", ArtistsVal.arr ["X"]⟩)
      ∈ (SeenRecord.mk [JValue.jstr "x—song a"] []).keys
    ∧ (∃ u ∈ dedupByBaseKey
        [⟨some "1", "Song A", ArtistsVal.arr ["X"]⟩, ⟨some "2", "Song B", ArtistsVal.arr ["Y"]⟩],
        freshTrack (SeenRecord.mk [JValue.jstr "x—song a"] []) u = true)
    ∧ (⟨some "1", "Song A", ArtistsVal.arr ["X"]⟩ : Track)
      ∉ assembleTracks (SeenRecord.mk [JValue.jstr "x—song a"] [])
        [⟨some "1", "Song A", ArtistsVal.arr ["X"]⟩, ⟨some "2", "Song B", ArtistsVal.arr ["Y"]⟩]
        none (fun _ => 0) (fun _ => 0) := by
  have h1 : JValue.jstr (baseTrackKey ⟨some "1", "Song A", ArtistsVal.arr ["X"]⟩)
      ∈ (SeenRecord.mk [JValue.jstr "x—song a"] []).keys := by
    rw [show baseTrackKey ⟨some "1", "Song A", ArtistsVal.arr ["X"]⟩ = "x—song a" from by decide]
    exact List.mem_singleton.mpr rfl
  have h2 : ∃ u ∈ dedupByBaseKey
      [⟨some "1", "Song A", ArtistsVal.arr ["X"]⟩, ⟨some "2", "Song B", ArtistsVal.arr ["Y"]⟩],
      freshTrack (SeenRecord.mk [JValue.jstr "x—song a"] []) u = true :=
    ⟨⟨some "2", "Song B", ArtistsVal.arr ["Y"]⟩, by decide, by decide⟩
  exact ⟨h1, h2, claim3_freshness_bias _ _ none (fun _ => 0) (fun _ => 0) _ h1 h2⟩

/-- claim C4: when the seen record already holds every canonical key and every id of
the non-empty deduplicated pool, the assembly still returns a non-empty list with
pairwise distinct canonical keys, equal as a set to the deduplicated pool: the
freshness constraint is waived instead of returning an empty result. -/
theorem claim4_exhaustion_fallback (seen : SeenRecord) (pool1 : List Track)
    (pool2 : Option (List Track)) (r1 r2 : Nat → Nat)
    (hkeys : ∀ t ∈ dedupByBaseKey pool1, JValue.jstr (baseTrackKey t) ∈ seen.keys)
    (_hids : ∀ t ∈ dedupByBaseKey pool1, ∀ s, t.id = some s → JValue.jstr s ∈ seen.ids)
    (hpool : dedupByBaseKey pool1 ≠ []) :
    assembleTracks seen pool1 pool2 r1 r2 ≠ []
    ∧ ((assembleTracks seen pool1 pool2 r1 r2).map baseTrackKey).Nodup
    ∧ (∀ t, t ∈ assembleTracks seen pool1 pool2 r1 r2 ↔ t ∈ dedupByBaseKey pool1) := by
  have hperm := jsShuffle_perm r1 (dedupByBaseKey pool1)
  have hfilnil : List.filter (freshTrack seen) (jsShuffle r1 (dedupByBaseKey pool1)) = [] := by
    rw [List.filter_eq_nil_iff]
    intro u hu
    have hu2 : u ∈ dedupByBaseKey pool1 := hperm.mem_iff.mp hu
    have hsv : svzMem seen.keys (.jstr (baseTrackKey u)) = true :=
      (svzMem_jstr_iff _ _).mpr (hkeys u hu2)
    simp [freshTrack, hsv]
  have hshne : jsShuffle r1 (dedupByBaseKey pool1) ≠ [] := by
    intro h0
    have hlen := hperm.length_eq
    rw [h0] at hlen
    exact hpool (List.length_eq_zero.mp hlen.symm)
  have hout : assembleTracks seen pool1 pool2 r1 r2 = jsShuffle r1 (dedupByBaseKey pool1) := by
    simp only [assembleTracks]
    rw [hfilnil]
    have h1 : (if ([] : List Track).length ≠ 0 then ([] : List Track)
        else jsShuffle r1 (dedupByBaseKey pool1)) = jsShuffle r1 (dedupByBaseKey pool1) := by
      simp
    rw [h1, if_neg (fun h => hshne (List.length_eq_zero.mp h))]
  refine ⟨hout ▸ hshne, assembleTracks_nodup_keys seen pool1 pool2 r1 r2, fun t => ?_⟩
  rw [hout]
  exact hperm.mem_iff

theorem claim4_exhaustion_fallback_witness :
    (∀ t ∈ dedupByBaseKey [(⟨some "1", "Song A", ArtistsVal.arr ["X"]⟩ : Track)],
      JValue.jstr (baseTrackKey t) ∈ (SeenRecord.mk [JValue.jstr "x—song a"] [JValue.jstr "1"]).keys)
    ∧ (∀ t ∈ dedupByBaseKey [(⟨some "1", "Song A", ArtistsVal.arr ["X"]⟩ : Track)],
      ∀ s, t.id = some s → JValue.jstr s ∈ (SeenRecord.mk [JValue.jstr "x—song a"] [JValue.jstr "1"]).ids)
    ∧ dedupByBaseKey [(⟨some "1", "Song A", ArtistsVal.arr ["X"]⟩ : Track)] ≠ []
    ∧ assembleTracks (SeenRecord.mk [JValue.jstr "x—song a"] [JValue.jstr "1"])
        [⟨some "1", "Song A", ArtistsVal.arr ["X"]⟩] none (fun _ => 0) (fun _ => 0) ≠ [] := by
  have hd : dedupByBaseKey [(⟨some "1", "Song A", ArtistsVal.arr ["X"]⟩ : Track)]
      = [⟨some "1", "Song A", ArtistsVal.arr ["X"]⟩] := by decide
  have hkeys : ∀ t ∈ dedupByBaseKey [(⟨some "1", "Song A", ArtistsVal.arr ["X"]⟩ : Track)],
      JValue.jstr (baseTrackKey t)
        ∈ (SeenRecord.mk [JValue.jstr "x—song a"] [JValue.jstr "1"]).keys := by
    rw [hd]
    intro t ht
    rcases List.mem_singleton.mp ht with rfl
    rw [show baseTrackKey ⟨some "1", "Song A", ArtistsVal.arr ["X"]⟩ = "x—song a" from by decide]
    exact List.mem_singleton.mpr rfl
  have hids : ∀ t ∈ dedupByBaseKey [(⟨some "1", "Song A", ArtistsVal.arr ["X"]⟩ : Track)],
      ∀ s, t.id = some s
        → JValue.jstr s ∈ (SeenRecord.mk [JValue.jstr "x—song a"] [JValue.jstr "1"]).ids := by
    rw [hd]
    intro t ht s hs
    rcases List.mem_singleton.mp ht with rfl
    cases hs
    exact List.mem_singleton.mpr rfl
  have hne : dedupByBaseKey [(⟨some "1", "Song A", ArtistsVal.arr ["X"]⟩ : Track)] ≠ [] := by
    rw [hd]; simp
  exact ⟨hkeys, hids, hne,
    (claim4_exhaustion_fallback _ _ none (fun _ => 0) (fun _ => 0) hkeys hids hne).1⟩

/-- claim C6: the canonical dedup pass keeps an in-order selection of the input
(sublist), every kept track is keyable, the kept canonical keys are pairwise
distinct, every non-empty key occurring in the input is represented, each kept track
is the first occurrence of its key, and on the three-track example pool exactly the
tracks with ids one and three remain. -/
theorem claim6_dedup_pass :
    (∀ ts : List Track, (dedupByBaseKey ts).Sublist ts)
    ∧ (∀ (ts : List Track) (t : Track), t ∈ dedupByBaseKey ts → baseTrackKey t ≠ "")
    ∧ (∀ ts : List Track, ((dedupByBaseKey ts).map baseTrackKey).Nodup)
    ∧ (∀ (ts : List Track) (t : Track), t ∈ ts → baseTrackKey t ≠ "" →
        ∃ u ∈ dedupByBaseKey ts, baseTrackKey u = baseTrackKey t)
    ∧ (∀ (ts : List Track) (t : Track), t ∈ dedupByBaseKey ts →
        (ts.filter (fun u => baseTrackKey u == baseTrackKey t)).head? = some t)
    ∧ dedupByBaseKey
        [⟨some "1", "Song A", ArtistsVal.arr ["X"]⟩,
         ⟨some "2", "Song A (Live)", ArtistsVal.arr ["X"]⟩,
         ⟨some "3", "Song B", ArtistsVal.arr ["Y"]⟩]
      = [⟨some "1", "Song A", ArtistsVal.arr ["X"]⟩,
         ⟨some "3", "Song B", ArtistsVal.arr ["Y"]⟩] := by
  refine ⟨fun ts => dedupAux_sublist ts [],
    fun ts t h => (dedupAux_key_free ts [] t h).2,
    fun ts => dedupAux_nodup_keys ts [],
    fun ts t ht hk => dedupAux_covers ts [] t ht hk (by simp),
    fun ts t h => dedupAux_first_occ ts [] t h,
    by decide⟩

theorem claim6_dedup_pass_witness :
    ((⟨some "2", "Song A (Live)", ArtistsVal.arr ["X"]⟩ : Track)
      ∈ [(⟨some "1", "Song A", ArtistsVal.arr ["X"]⟩ : Track),
         ⟨some "2", "Song A (Live)", ArtistsVal.arr ["X"]⟩,
         ⟨some "3", "Song B", ArtistsVal.arr ["Y"]⟩])
    ∧ baseTrackKey ⟨some "2", "Song A (Live)", ArtistsVal.arr ["X"]⟩ ≠ ""
    ∧ ∃ u ∈ dedupByBaseKey
        [(⟨some "1", "Song A", ArtistsVal.arr ["X"]⟩ : Track),
         ⟨some "2", "Song A (Live)", ArtistsVal.arr ["X"]⟩,
         ⟨some "3", "Song B", ArtistsVal.arr ["Y"]⟩],
        baseTrackKey u = baseTrackKey ⟨some "2", "Song A (Live)", ArtistsVal.arr ["X"]⟩ :=
  ⟨by decide, by decide,
    claim6_dedup_pass.2.2.2.1 _ ⟨some "2", "Song A (Live)", ArtistsVal.arr ["X"]⟩
      (by decide) (by decide)⟩

/-- claim C7: the history load never throws (it is a total function) and returns the
empty record when no blob is stored, when the blob is unreadable, when the parsed
blob is falsy, or when the mood key has no entry; a legacy flat-list entry is read as
canonical keys with no ids; a current-schema entry yields exactly the stored key and
id arrays, as sets. -/
theorem claim7_load_semantics :
    (∀ k, loadSeenForMood .absent k = ⟨[], []⟩)
    ∧ (∀ k, loadSeenForMood .corrupt k = ⟨[], []⟩)
    ∧ (∀ k j, jsTruthy j = false → loadSeenForMood (.readable j) k = ⟨[], []⟩)
    ∧ (∀ k fs, List.lookup k fs = none → loadSeenForMood (.readable (.jobj fs)) k = ⟨[], []⟩)
    ∧ (∀ k fs xs, List.lookup k fs = some (.jarr xs) →
        loadSeenForMood (.readable (.jobj fs)) k = ⟨dedupFirst xs, []⟩)
    ∧ (∀ k fs efs ks is, List.lookup k fs = some (.jobj efs) →
        List.lookup "keys" efs = some (.jarr ks) → List.lookup "ids" efs = some (.jarr is) →
        loadSeenForMood (.readable (.jobj fs)) k = ⟨dedupFirst ks, dedupFirst is⟩) := by
  refine ⟨fun k => rfl, fun k => rfl, ?_, ?_, ?_, ?_⟩
  · intro k j hj
    simp only [loadSeenForMood, hj]
    simp [jsGet, List.lookup, dedupFirst, dedupFirstAux]
  · intro k fs hl
    simp [loadSeenForMood, jsTruthy, jsGet, hl, dedupFirst, dedupFirstAux]
  · intro k fs xs hl
    simp [loadSeenForMood, jsTruthy, jsGet, hl]
  · intro k fs efs ks is hl hk hi
    simp [loadSeenForMood, jsTruthy, jsGet, hl, hk, hi]

theorem claim7_load_semantics_witness :
    List.lookup "m__" [("m__", JValue.jarr [JValue.jstr "a", JValue.jstr "a", JValue.jstr "b"])]
      = some (JValue.jarr [JValue.jstr "a", JValue.jstr "a", JValue.jstr "b"])
    ∧ loadSeenForMood
        (.readable (.jobj [("m__", JValue.jarr [JValue.jstr "a", JValue.jstr "a", JValue.jstr "b"])]))
        "m__"
      = ⟨dedupFirst [JValue.jstr "a", JValue.jstr "a", JValue.jstr "b"], []⟩ := by
  have h : List.lookup "m__"
      [("m__", JValue.jarr [JValue.jstr "a", JValue.jstr "a", JValue.jstr "b"])]
      = some (JValue.jarr [JValue.jstr "a", JValue.jstr "a", JValue.jstr "b"]) := rfl
  exact ⟨h, claim7_load_semantics.2.2.2.2.1 "m__" _ _ h⟩

/-- claim C8: every storage failure during save is swallowed. When the write throws,
or the stored blob is unreadable, the inner try body raises, the catch returns
normally with the blob unchanged, and the generate action still returns exactly the
assembled track list: the shown result never depends on persistence succeeding. -/
theorem claim8_save_swallows_errors (w : Bool) (b : Blob) (k : String) (seen : SeenRecord)
    (pool1 : List Track) (pool2 : Option (List Track)) (r1 r2 : Nat → Nat) :
    saveSeenForMoodE false b k seen = .error ()
    ∧ saveSeenForMood false b k seen = b
    ∧ saveSeenForMoodE w .corrupt k seen = .error ()
    ∧ saveSeenForMood w .corrupt k seen = .corrupt
    ∧ (runGenerate w b k pool1 pool2 r1 r2).1
      = assembleTracks (loadSeenForMood b k) pool1 pool2 r1 r2 := by
  have hE : saveSeenForMoodE false b k seen = .error () := by
    cases b with
    | corrupt => rfl
    | absent => rfl
    | readable j =>
      rw [saveSeenForMoodE]
      cases hs : jsSetProp (if jsTruthy j then j else .jobj []) k (entryValue seen) with
      | none => rfl
      | some obj => rfl
  refine ⟨hE, ?_, rfl, rfl, rfl⟩
  rw [saveSeenForMood, hE]

/-- claim C10: saving the record for one mood key leaves the stored entry of every
other mood key unchanged, whether the write succeeds or fails. -/
theorem claim10_save_frame (w : Bool) (b : Blob) (k : String) (seen : SeenRecord)
    (k2 : String) (hne : k2 ≠ k) :
    storedEntry (saveSeenForMood w b k seen) k2 = storedEntry b k2 := by
  cases b with
  | corrupt => rw [saveSeenForMood, saveSeenForMoodE]
  | absent =>
    rw [saveSeenForMood, saveSeenForMoodE]
    cases w with
    | false => rfl
    | true =>
      simp only [jsSetProp, if_true]
      simp only [storedEntry, jsGet]
      rw [lookup_upsert_ne hne]
      rfl
  | readable j =>
    rw [saveSeenForMood, saveSeenForMoodE]
    cases hj : jsTruthy j with
    | false =>
      simp only [if_false, Bool.false_eq_true]
      simp only [jsSetProp]
      cases w with
      | false => rfl
      | true =>
        simp only [if_true, storedEntry, jsGet]
        rw [lookup_upsert_ne hne]
        cases j with
        | null => rfl
        | jbool bb => rfl
        | jnum n => rfl
        | jstr s => rfl
        | jarr xs => simp [jsTruthy] at hj
        | jobj fs => simp [jsTruthy] at hj
    | true =>
      simp only [if_true]
      cases j with
      | null => simp [jsTruthy] at hj
      | jbool bb =>
        simp only [jsSetProp]
      | jnum n =>
        simp only [jsSetProp]
      | jstr s =>
        simp only [jsSetProp]
      | jarr xs =>
        simp only [jsSetProp]
        cases w with
        | false => rfl
        | true => rfl
      | jobj fs =>
        simp only [jsSetProp]
        cases w with
        | false => rfl
        | true =>
          simp only [if_true, storedEntry, jsGet]
          rw [lookup_upsert_ne hne]

theorem claim10_save_frame_witness :
    ("other" : String) ≠ "m__"
    ∧ storedEntry
        (saveSeenForMood true (.readable (.jobj [("other", JValue.jarr [JValue.jstr "z"])]))
          "m__" ⟨[JValue.jstr "a"], []⟩) "other"
      = storedEntry (.readable (.jobj [("other", JValue.jarr [JValue.jstr "z"])])) "other" :=
  ⟨by decide, claim10_save_frame true _ "m__" ⟨[JValue.jstr "a"], []⟩ "other" (by decide)⟩

/-! ## Character facts for the normalizer idempotence analysis -/

theorem map_eq_self_of {α : Type} (f : α → α) : ∀ l : List α, (∀ c ∈ l, f c = c) → l.map f = l := by
  intro l
  induction l with
  | nil => intro _; rfl
  | cons a l ih =>
    intro h
    rw [List.map_cons, h a (List.mem_cons_self a l), ih (fun c hc => h c (List.mem_cons_of_mem a hc))]

theorem isJsWs_mem_codes {c : Char} (h : isJsWs c = true) : c.toNat ∈ wsCodes := by
  rw [isJsWs] at h
  exact List.elem_iff.mp h

theorem allowedCh_codes {c : Char} (h : allowedCh c = true) :
    (97 ≤ c.toNat ∧ c.toNat ≤ 122) ∨ (48 ≤ c.toNat ∧ c.toNat ≤ 57) ∨ c.toNat = 39
    ∨ c.toNat ∈ wsCodes := by
  rw [allowedCh] at h
  simp only [Bool.or_eq_true, Bool.and_eq_true, decide_eq_true_eq] at h
  rcases h with ((h1 | h2) | hws) | h4
  · exact Or.inl h1
  · exact Or.inr (Or.inl h2)
  · exact Or.inr (Or.inr (Or.inr (isJsWs_mem_codes hws)))
  · exact Or.inr (Or.inr (Or.inl h4))

theorem allowedCh_code_cases {c : Char} (h : allowedCh c = true) :
    (97 ≤ c.toNat ∧ c.toNat ≤ 122) ∨ (48 ≤ c.toNat ∧ c.toNat ≤ 57) ∨ c.toNat = 39
    ∨ c.toNat = 9 ∨ c.toNat = 10 ∨ c.toNat = 11 ∨ c.toNat = 12 ∨ c.toNat = 13
    ∨ c.toNat = 32 ∨ c.toNat = 160 ∨ c.toNat = 0x1680 ∨ c.toNat = 0x2000 ∨ c.toNat = 0x2001
    ∨ c.toNat = 0x2002 ∨ c.toNat = 0x2003 ∨ c.toNat = 0x2004 ∨ c.toNat = 0x2005
    ∨ c.toNat = 0x2006 ∨ c.toNat = 0x2007 ∨ c.toNat = 0x2008 ∨ c.toNat = 0x2009
    ∨ c.toNat = 0x200a ∨ c.toNat = 0x2028 ∨ c.toNat = 0x2029 ∨ c.toNat = 0x202f
    ∨ c.toNat = 0x205f ∨ c.toNat = 0x3000 ∨ c.toNat = 0xfeff := by
  have h2 := allowedCh_codes h
  simp only [wsCodes, List.mem_cons, List.not_mem_nil, or_false] at h2
  tauto

theorem allowed_not_openBr {c : Char} (h : allowedCh c = true) : isOpenBr c = false := by
  have hc := allowedCh_code_cases h
  rw [isOpenBr]
  simp only [Bool.or_eq_false_iff, decide_eq_false_iff_not]
  omega

theorem allowed_not_sepDash {c : Char} (h : allowedCh c = true) : isSepDash c = false := by
  have hc := allowedCh_code_cases h
  rw [isSepDash]
  simp only [Bool.or_eq_false_iff, decide_eq_false_iff_not]
  omega

theorem allowed_toLower {c : Char} (h : allowedCh c = true) : toLowerCh c = c := by
  have hc := allowedCh_code_cases h
  rw [toLowerCh, if_neg]
  simp only [Bool.and_eq_true, decide_eq_true_eq, not_and]
  omega

theorem allowed_strip {c : Char} (h : allowedCh c = true) :
    (if allowedCh c then c else Char.ofNat 32) = c := by
  rw [if_pos h]

/-! ## Facts about runs, the collapse pass and trimming -/

theorem runLen_drop_head {f : Char → Bool} : ∀ (l : List Char) (c : Char),
    (l.drop (runLen f l)).head? = some c → f c = false := by
  intro l
  induction l with
  | nil => intro c h; simp at h
  | cons a l ih =>
    intro c h
    rw [runLen] at h
    by_cases ha : f a = true
    · rw [if_pos ha, List.drop_succ_cons] at h
      exact ih c h
    · rw [if_neg ha, List.drop_zero] at h
      rw [List.head?_cons, Option.some_inj] at h
      rw [← h]
      exact Bool.eq_false_iff.mpr ha

theorem runLen_pos_head {f : Char → Bool} : ∀ (l : List Char), 1 ≤ runLen f l →
    ∃ c, l.head? = some c ∧ f c = true := by
  intro l
  cases l with
  | nil => intro h; simp [runLen] at h
  | cons a l =>
    intro h
    by_cases ha : f a = true
    · exact ⟨a, rfl, ha⟩
    · rw [runLen, if_neg ha] at h
      omega

theorem collapseF_allowed : ∀ (fuel : Nat) (l : List Char),
    (∀ c ∈ l, allowedCh c = true) → ∀ c ∈ collapseF fuel l, allowedCh c = true := by
  intro fuel
  induction fuel with
  | zero =>
    intro l h c hc
    cases l with
    | nil => cases hc
    | cons a l => exact h c hc
  | succ fuel ih =>
    intro l h c hc
    cases l with
    | nil => cases hc
    | cons a l =>
      rw [collapseF] at hc
      split at hc
      · rcases List.mem_cons.mp hc with rfl | hc2
        · decide
        · exact ih _ (fun d hd => h d (List.mem_cons_of_mem a (List.drop_subset _ _ hd))) c hc2
      · rcases List.mem_cons.mp hc with rfl | hc2
        · exact h _ (List.mem_cons_self _ _)
        · exact ih _ (fun d hd => h d (List.mem_cons_of_mem _ hd)) c hc2

theorem collapseF_head_ws : ∀ (fuel : Nat) (l : List Char) (c : Char),
    (collapseF fuel l).head? = some c → isJsWs c = true →
    ∃ d, l.head? = some d ∧ isJsWs d = true := by
  intro fuel
  induction fuel with
  | zero =>
    intro l c h hws
    cases l with
    | nil => simp [collapseF] at h
    | cons a l => exact ⟨c, h, hws⟩
  | succ fuel _ =>
    intro l c h hws
    cases l with
    | nil => simp [collapseF] at h
    | cons a l =>
      rw [collapseF] at h
      split at h
      · rename_i hcond
        rw [Bool.and_eq_true] at hcond
        exact ⟨a, rfl, hcond.1⟩
      · rw [List.head?_cons, Option.some_inj] at h
        exact ⟨a, rfl, h ▸ hws⟩

theorem noAdjWs_cons_iff (a : Char) (l : List Char) :
    noAdjWs (a :: l) ↔
    (∀ d, l.head? = some d → ¬(isJsWs a = true ∧ isJsWs d = true)) ∧ noAdjWs l := by
  cases l with
  | nil => simp [noAdjWs]
  | cons b l =>
    rw [noAdjWs]
    constructor
    · rintro ⟨h1, h2⟩
      refine ⟨?_, h2⟩
      intro d hd
      rw [List.head?_cons, Option.some_inj] at hd
      exact hd ▸ h1
    · rintro ⟨h1, h2⟩
      exact ⟨h1 b rfl, h2⟩

theorem collapseF_noAdj : ∀ (fuel : Nat) (l : List Char), l.length ≤ fuel →
    noAdjWs (collapseF fuel l) := by
  intro fuel
  induction fuel with
  | zero =>
    intro l hl
    have : l = [] := List.length_eq_zero.mp (Nat.le_zero.mp hl)
    subst this
    trivial
  | succ fuel ih =>
    intro l hl
    cases l with
    | nil => trivial
    | cons a l =>
      rw [collapseF]
      split
      · rename_i hcond
        rw [noAdjWs_cons_iff]
        constructor
        · intro d hd hpair
          obtain ⟨e, he, hews⟩ := collapseF_head_ws fuel _ d hd hpair.2
          exact Bool.eq_false_iff.mp (runLen_drop_head l e he) hews
        · apply ih
          have h1 : (l.drop (runLen isJsWs l)).length ≤ l.length := by
            rw [List.length_drop]; omega
          have h2 : l.length ≤ fuel := by
            rw [List.length_cons] at hl; omega
          omega
      · rename_i hcond
        rw [noAdjWs_cons_iff]
        have hlen : l.length ≤ fuel := by
          rw [List.length_cons] at hl; omega
        constructor
        · intro d hd hpair
          rw [Bool.and_eq_true, Decidable.not_and_iff_or_not] at hcond
          rcases hcond with hna | hrl
          · exact hna hpair.1
          · obtain ⟨e, he, hews⟩ := collapseF_head_ws fuel l d hd hpair.2
            apply hrl
            simp only [decide_eq_true_eq]
            cases l with
            | nil => simp at he
            | cons b l2 =>
              rw [List.head?_cons, Option.some_inj] at he
              subst he
              rw [runLen, if_pos hews]
              omega
        · exact ih l hlen

theorem collapseF_id : ∀ (fuel : Nat) (l : List Char), noAdjWs l → collapseF fuel l = l := by
  intro fuel
  induction fuel with
  | zero =>
    intro l _
    cases l with
    | nil => rfl
    | cons a l => rfl
  | succ fuel ih =>
    intro l hn
    cases l with
    | nil => rfl
    | cons a l =>
      rw [collapseF, if_neg]
      · rw [ih l ((noAdjWs_cons_iff a l).mp hn).2]
      · rw [Bool.and_eq_true]
        rintro ⟨haws, hrl⟩
        rw [decide_eq_true_eq] at hrl
        obtain ⟨e, he, hews⟩ := runLen_pos_head l hrl
        exact ((noAdjWs_cons_iff a l).mp hn).1 e he ⟨haws, hews⟩

/-! ## Trimming lemmas -/

theorem trimRight_getLast_not_ws : ∀ (l : List Char) (c : Char),
    (trimRightList l).getLast? = some c → isJsWs c = false := by
  intro l
  induction l with
  | nil => intro c h; simp [trimRightList] at h
  | cons a l ih =>
    intro c h
    rw [trimRightList] at h
    cases hr : trimRightList l with
    | nil =>
      rw [hr] at h
      by_cases ha : isJsWs a = true
      · rw [if_pos ha] at h; simp at h
      · rw [if_neg ha] at h
        simp only [List.getLast?_singleton, Option.some_inj] at h
        rw [← h]
        exact Bool.eq_false_iff.mpr ha
    | cons b r =>
      rw [hr, List.getLast?_cons_cons] at h
      rw [← hr] at h
      exact ih c h

theorem trimRight_head : ∀ (l : List Char), trimRightList l ≠ [] →
    (trimRightList l).head? = l.head? := by
  intro l
  cases l with
  | nil => intro h; exact absurd rfl h
  | cons a l =>
    intro h
    rw [trimRightList] at h ⊢
    cases hr : trimRightList l with
    | nil =>
      rw [hr] at h
      change (if isJsWs a = true then ([] : List Char) else [a]) ≠ [] at h
      change (if isJsWs a = true then ([] : List Char) else [a]).head? = (a :: l).head?
      by_cases ha : isJsWs a = true
      · rw [if_pos ha] at h
        exact absurd rfl h
      · rw [if_neg ha]
        rfl
    | cons b r => rfl

theorem trimRight_subset : ∀ (l : List Char) (c : Char), c ∈ trimRightList l → c ∈ l := by
  intro l
  induction l with
  | nil => intro c h; cases h
  | cons a l ih =>
    intro c h
    rw [trimRightList] at h
    cases hr : trimRightList l with
    | nil =>
      rw [hr] at h
      by_cases ha : isJsWs a = true
      · rw [if_pos ha] at h; cases h
      · rw [if_neg ha] at h
        rcases List.mem_singleton.mp h with rfl
        exact List.mem_cons_self _ _
    | cons b r =>
      rw [hr] at h
      rcases List.mem_cons.mp h with rfl | h2
      · exact List.mem_cons_self _ _
      · exact List.mem_cons_of_mem _ (ih c (hr ▸ h2))

theorem trimRight_noAdj : ∀ (l : List Char), noAdjWs l → noAdjWs (trimRightList l) := by
  intro l
  induction l with
  | nil => intro _; trivial
  | cons a l ih =>
    intro hn
    rw [trimRightList]
    cases hr : trimRightList l with
    | nil =>
      by_cases ha : isJsWs a = true
      · rw [if_pos ha]; trivial
      · rw [if_neg ha]; trivial
    | cons b r =>
      show noAdjWs (a :: b :: r)
      rw [noAdjWs_cons_iff]
      constructor
      · intro d hd
        have hne : trimRightList l ≠ [] := by rw [hr]; simp
        have hhead := trimRight_head l hne
        rw [hr] at hhead
        rw [List.head?_cons, Option.some_inj] at hd
        subst hd
        exact ((noAdjWs_cons_iff a l).mp hn).1 b (by rw [← hhead]; rfl)
      · rw [← hr]
        exact ih ((noAdjWs_cons_iff a l).mp hn).2

theorem trimRight_id : ∀ (l : List Char) (c : Char), l.getLast? = some c → isJsWs c = false →
    trimRightList l = l := by
  intro l
  induction l with
  | nil => intro c h; simp at h
  | cons a l ih =>
    intro c h hws
    cases l with
    | nil =>
      simp only [List.getLast?_singleton, Option.some_inj] at h
      subst h
      rw [trimRightList, trimRightList, if_neg (Bool.eq_false_iff.mp hws)]
    | cons b l2 =>
      rw [List.getLast?_cons_cons] at h
      have hrec := ih c h hws
      rw [trimRightList, hrec]

theorem dropWhile_head_not : ∀ (l : List Char) (c : Char),
    ((l.dropWhile isJsWs).head? = some c) → isJsWs c = false := by
  intro l
  induction l with
  | nil => intro c h; simp at h
  | cons a l ih =>
    intro c h
    by_cases ha : isJsWs a = true
    · rw [List.dropWhile_cons_of_pos ha] at h
      exact ih c h
    · rw [List.dropWhile_cons_of_neg ha] at h
      rw [List.head?_cons, Option.some_inj] at h
      rw [← h]
      exact Bool.eq_false_iff.mpr ha

theorem dropWhile_id_of_head : ∀ (l : List Char),
    (∀ c, l.head? = some c → isJsWs c = false) → l.dropWhile isJsWs = l := by
  intro l h
  cases l with
  | nil => rfl
  | cons a l =>
    have := h a rfl
    rw [List.dropWhile_cons_of_neg (Bool.eq_false_iff.mp this)]

theorem dropWhile_noAdj : ∀ (l : List Char), noAdjWs l → noAdjWs (l.dropWhile isJsWs) := by
  intro l
  induction l with
  | nil => intro _; trivial
  | cons a l ih =>
    intro hn
    by_cases ha : isJsWs a = true
    · rw [List.dropWhile_cons_of_pos ha]
      exact ih ((noAdjWs_cons_iff a l).mp hn).2
    · rw [List.dropWhile_cons_of_neg ha]
      exact hn

theorem dropWhile_getLast : ∀ (l : List Char), l.dropWhile isJsWs ≠ [] →
    (l.dropWhile isJsWs).getLast? = l.getLast? := by
  intro l
  induction l with
  | nil => intro h; exact absurd rfl h
  | cons a l ih =>
    intro h
    by_cases ha : isJsWs a = true
    · rw [List.dropWhile_cons_of_pos ha] at h ⊢
      cases l with
      | nil => exact absurd rfl h
      | cons b l2 =>
        rw [List.getLast?_cons_cons]
        exact ih h
    · rw [List.dropWhile_cons_of_neg ha]

theorem jsTrim_head_not_ws (s : String) : ∀ c, (jsTrim s).data.head? = some c →
    isJsWs c = false := by
  intro c hc
  have hne : trimRightList (s.data.dropWhile isJsWs) ≠ [] := by
    intro h0
    rw [jsTrim] at hc
    simp only [h0] at hc
    cases hc
  rw [jsTrim] at hc
  simp only at hc
  rw [trimRight_head _ hne] at hc
  exact dropWhile_head_not _ c hc

theorem jsTrim_last_not_ws (s : String) : ∀ c, (jsTrim s).data.getLast? = some c →
    isJsWs c = false := by
  intro c hc
  rw [jsTrim] at hc
  exact trimRight_getLast_not_ws _ c hc

theorem jsTrim_allowed (s : String) (h : ∀ c ∈ s.data, allowedCh c = true) :
    ∀ c ∈ (jsTrim s).data, allowedCh c = true := by
  intro c hc
  rw [jsTrim] at hc
  exact h c (List.dropWhile_sublist isJsWs |>.subset (trimRight_subset _ c hc))

theorem jsTrim_noAdj (s : String) (h : noAdjWs s.data) : noAdjWs (jsTrim s).data := by
  rw [jsTrim]
  exact trimRight_noAdj _ (dropWhile_noAdj _ h)

theorem jsTrim_id (s : String)
    (hh : ∀ c, s.data.head? = some c → isJsWs c = false)
    (hl : ∀ c, s.data.getLast? = some c → isJsWs c = false) : jsTrim s = s := by
  obtain ⟨d⟩ := s
  rw [jsTrim]
  simp only at hh hl ⊢
  rw [dropWhile_id_of_head d hh]
  cases hd : d.getLast? with
  | none =>
    have : d = [] := by
      cases d with
      | nil => rfl
      | cons a d2 => simp [List.getLast?_eq_none_iff] at hd
    subst this
    rfl
  | some c =>
    rw [trimRight_id d c hd (hl c hd)]

/-! ## No-match lemmas: on a fully normalized string the bracket and dash patterns
cannot fire, so their global replaces are the identity -/

theorem rpSeq_eq_nil (p q : RP) (prev : Char) (l : List Char)
    (h : ∀ pr n, q pr (l.drop n) = []) : rpSeq p q prev l = [] := by
  rw [rpSeq, List.flatMap_eq_nil_iff]
  intro n _
  rw [h _ n]
  rfl

theorem rpChar_eq_nil {f : Char → Bool} (pr : Char) (l : List Char)
    (h : ∀ c ∈ l, f c = false) : rpChar f pr l = [] := by
  cases l with
  | nil => rfl
  | cons c l =>
    rw [rpChar]
    rw [if_neg]
    rw [h c (List.mem_cons_self c l)]
    simp

theorem rpSeq_char_nil {f : Char → Bool} (q : RP) (pr : Char) (l : List Char)
    (h : ∀ c ∈ l, f c = false) : rpSeq (rpChar f) q pr l = [] := by
  rw [rpSeq, rpChar_eq_nil pr l h]
  rfl

theorem rpPat2_eq_nil (prev : Char) (l : List Char)
    (h : ∀ c ∈ l, allowedCh c = true) : rpPat2 prev l = [] := by
  apply rpSeq_eq_nil
  intro pr n
  apply rpSeq_char_nil
  intro c hc
  exact allowed_not_openBr (h c (List.drop_subset n l hc))

theorem rpPat3_eq_nil (prev : Char) (l : List Char)
    (h : ∀ c ∈ l, allowedCh c = true) : rpPat3 prev l = [] := by
  apply rpSeq_eq_nil
  intro pr n
  apply rpSeq_char_nil
  intro c hc
  exact allowed_not_sepDash (h c (List.drop_subset n l hc))

theorem replScanF_id (m : Char → List Char → Option Nat) (rep : List Char) :
    ∀ (fuel : Nat) (l : List Char) (prev : Char), (∀ pr n, m pr (l.drop n) = none) →
    replScanF m rep fuel prev l = l := by
  intro fuel
  induction fuel with
  | zero =>
    intro l prev _
    cases l with
    | nil => rfl
    | cons c cs => rfl
  | succ fuel ih =>
    intro l prev h
    cases l with
    | nil => rfl
    | cons c cs =>
      have h0 : m prev (c :: cs) = none := by
        have := h prev 0
        rwa [List.drop_zero] at this
      rw [replScanF, h0]
      rw [ih cs c (fun pr n => by
        have := h pr (n+1)
        rwa [List.drop_succ_cons] at this)]

theorem bracketRemove_id (s : String) (h : ∀ c ∈ s.data, allowedCh c = true) :
    bracketRemove s = s := by
  obtain ⟨d⟩ := s
  rw [bracketRemove, jsReplaceAll, replScan]
  simp only at h ⊢
  rw [replScanF_id]
  intro pr n
  rw [rpPat2_eq_nil pr (d.drop n) (fun c hc => h c (List.drop_subset n d hc))]
  rfl

theorem dashRemove_id (s : String) (h : ∀ c ∈ s.data, allowedCh c = true) :
    dashRemove s = s := by
  obtain ⟨d⟩ := s
  rw [dashRemove, jsReplaceAll, replScan]
  simp only at h ⊢
  rw [replScanF_id]
  intro pr n
  rw [rpPat3_eq_nil pr (d.drop n) (fun c hc => h c (List.drop_subset n d hc))]
  rfl

theorem jsToLower_id (s : String) (h : ∀ c ∈ s.data, allowedCh c = true) :
    jsToLower s = s := by
  obtain ⟨d⟩ := s
  rw [jsToLower]
  simp only at h ⊢
  rw [map_eq_self_of _ d (fun c hc => allowed_toLower (h c hc))]

theorem stripPunct_id (s : String) (h : ∀ c ∈ s.data, allowedCh c = true) :
    stripPunct s = s := by
  obtain ⟨d⟩ := s
  rw [stripPunct]
  simp only at h ⊢
  rw [map_eq_self_of _ d (fun c hc => allowed_strip (h c hc))]

theorem collapseWs_id (s : String) (h : noAdjWs s.data) : collapseWs s = s := by
  obtain ⟨d⟩ := s
  rw [collapseWs, collapseList]
  simp only at h ⊢
  rw [collapseF_id _ d h]

/-! ## Facts about the normalizer output -/

theorem stripPunct_allowed (s : String) : ∀ c ∈ (stripPunct s).data, allowedCh c = true := by
  intro c hc
  rw [stripPunct] at hc
  simp only at hc
  rcases List.mem_map.mp hc with ⟨a, _, rfl⟩
  by_cases hall : allowedCh a = true
  · rw [if_pos hall]; exact hall
  · rw [if_neg hall]; decide

theorem collapseWs_allowed (s : String) (h : ∀ c ∈ s.data, allowedCh c = true) :
    ∀ c ∈ (collapseWs s).data, allowedCh c = true := by
  intro c hc
  rw [collapseWs, collapseList] at hc
  exact collapseF_allowed _ _ h c hc

theorem collapseWs_noAdj (s : String) : noAdjWs (collapseWs s).data := by
  rw [collapseWs, collapseList]
  exact collapseF_noAdj _ _ (Nat.le_refl _)

theorem normalizeTitle_allowed (x : String) :
    ∀ c ∈ (normalizeTitle x).data, allowedCh c = true := by
  rw [normalizeTitle]
  split
  · intro c hc; cases hc
  · exact jsTrim_allowed _ (collapseWs_allowed _ (stripPunct_allowed _))

theorem normalizeTitle_noAdj (x : String) : noAdjWs (normalizeTitle x).data := by
  rw [normalizeTitle]
  split
  · trivial
  · exact jsTrim_noAdj _ (collapseWs_noAdj _)

theorem normalizeTitle_head_not_ws (x : String) :
    ∀ c, (normalizeTitle x).data.head? = some c → isJsWs c = false := by
  rw [normalizeTitle]
  split
  · intro c hc; cases hc
  · exact jsTrim_head_not_ws _

theorem normalizeTitle_last_not_ws (x : String) :
    ∀ c, (normalizeTitle x).data.getLast? = some c → isJsWs c = false := by
  rw [normalizeTitle]
  split
  · intro c hc; cases hc
  · exact jsTrim_last_not_ws _

/-- claim C5 as amended: normalize is idempotent exactly on the normalized titles the
featuring-credit pass leaves unchanged: for every x, if the credit pass fixes
normalize(x), then normalize(normalize(x)) = normalize(x). A normalized title can
still contain a credit phrase (counterexample below), and a second application then
strips it further, so idempotence does not hold unconditionally on the image. -/
theorem claim5_normalize_idempotent_amended (x : String)
    (h : featRemove (normalizeTitle x) = normalizeTitle x) :
    normalizeTitle (normalizeTitle x) = normalizeTitle x := by
  by_cases h0 : normalizeTitle x = ""
  · rw [h0]; rfl
  · have hall := normalizeTitle_allowed x
    have hnoadj := normalizeTitle_noAdj x
    conv_lhs => rw [normalizeTitle]
    rw [if_neg h0]
    rw [jsToLower_id _ hall, h, bracketRemove_id _ hall, dashRemove_id _ hall,
      stripPunct_id _ hall, collapseWs_id _ hnoadj,
      jsTrim_id _ (normalizeTitle_head_not_ws x) (normalizeTitle_last_not_ws x)]

/-- claim C5 counterexample: the title Me,with,You normalizes to me with you, a
string in the image of normalize, but a second application strips the credit phrase
and returns me, so normalize is not idempotent on its image. -/
theorem claim5_counterexample :
    normalizeTitle "Me,with,You" = "me with you"
    ∧ normalizeTitle "me with you" = "me"
    ∧ normalizeTitle (normalizeTitle "Me,with,You") ≠ normalizeTitle "Me,with,You" := by
  refine ⟨by decide, by decide, by decide⟩

theorem claim5_normalize_idempotent_amended_witness :
    featRemove (normalizeTitle "Hello World") = normalizeTitle "Hello World"
    ∧ normalizeTitle (normalizeTitle "Hello World") = normalizeTitle "Hello World" :=
  ⟨by decide, claim5_normalize_idempotent_amended "Hello World" (by decide)⟩

/-! ## Lemmas about slice-based truncation -/

theorem takeLast_length_le {α : Type} (n : Nat) (l : List α) : (takeLast n l).length ≤ n := by
  rw [takeLast, List.length_drop]
  omega

theorem takeLast_suffix {α : Type} (n : Nat) (l : List α) : (takeLast n l).IsSuffix l :=
  List.drop_suffix _ _

theorem takeLast_all {α : Type} {n : Nat} {l : List α} (h : l.length ≤ n) : takeLast n l = l := by
  rw [takeLast, Nat.sub_eq_zero_of_le h, List.drop_zero]

theorem takeLast_nil {α : Type} (n : Nat) : takeLast n ([] : List α) = [] := by
  rw [takeLast, List.drop_nil]

theorem takeLast_map {α β : Type} (f : α → β) (n : Nat) (l : List α) :
    takeLast n (l.map f) = (takeLast n l).map f := by
  rw [takeLast, takeLast, List.length_map, List.map_drop]

theorem takeLast_append_takeLast {α : Type} (n : Nat) (xs ys : List α) :
    takeLast n (takeLast n xs ++ ys) = takeLast n (xs ++ ys) := by
  rcases Nat.le_total xs.length n with hle | hge
  · rw [takeLast_all hle]
  · have hlen : (List.drop (xs.length - n) xs).length = n := by
      rw [List.length_drop]; omega
    rw [takeLast, takeLast, takeLast]
    rw [List.length_append, List.length_append, hlen]
    rw [List.drop_append_eq_append_drop, List.drop_append_eq_append_drop]
    rw [List.drop_drop, hlen]
    congr 2 <;> omega

/-! ## Lemmas about key accumulation -/

theorem jstr_injective : Function.Injective JValue.jstr := by
  intro a b h
  injection h

theorem addKeys_ids : ∀ (ks : List String) (seen : SeenRecord), (addKeys seen ks).ids = seen.ids := by
  intro ks
  induction ks with
  | nil => intro seen; rfl
  | cons s ks ih =>
    intro seen
    rw [addKeys, List.foldl_cons, ← addKeys]
    rw [ih]

theorem addKeys_keys : ∀ (ks : List String) (seen : SeenRecord),
    (∀ s ∈ ks, JValue.jstr s ∉ seen.keys) → ks.Nodup →
    (addKeys seen ks).keys = seen.keys ++ ks.map .jstr := by
  intro ks
  induction ks with
  | nil => intro seen _ _; simp [addKeys]
  | cons s ks ih =>
    intro seen hfresh hnd
    rw [addKeys, List.foldl_cons, ← addKeys]
    rw [setAddJ_not_mem (hfresh s (List.mem_cons_self s ks))]
    rw [ih ⟨seen.keys ++ [JValue.jstr s], seen.ids⟩ ?_ hnd.of_cons]
    · simp
    · intro t ht
      rw [List.mem_append]
      rintro (hmem | hmem)
      · exact hfresh t (List.mem_cons_of_mem s ht) hmem
      · rcases List.mem_singleton.mp hmem with he
        have : t = s := jstr_injective he
        subst this
        exact (List.nodup_cons.mp hnd).1 ht

/-! ## Lemmas about the fresh key supply -/

theorem allKeysJ_nodup (f : Nat → String) (hf : Function.Injective f) (m : Nat) :
    (allKeysJ f m).Nodup := by
  rw [allKeysJ]
  exact (((List.nodup_range m).map hf).map jstr_injective)

theorem allKeysJ_add (f : Nat → String) (m k : Nat) :
    allKeysJ f (m + k) = allKeysJ f m ++ ((List.range k).map (fun j => f (m + j))).map .jstr := by
  simp only [allKeysJ, List.range_add, List.map_append, List.map_map]
  rfl

theorem batchKeys_nodup (f : Nat → String) (hf : Function.Injective f) (i : Nat) :
    (batchKeys f i).Nodup := by
  rw [batchKeys]
  refine (List.nodup_range 100).map ?_
  intro a b h
  have := hf h
  omega

theorem allKeysJ_mem {f : Nat → String} {m : Nat} {v : JValue} (h : v ∈ allKeysJ f m) :
    ∃ n, n < m ∧ v = .jstr (f n) := by
  rw [allKeysJ] at h
  rcases List.mem_map.mp h with ⟨s, hs, rfl⟩
  rcases List.mem_map.mp hs with ⟨n, hn, rfl⟩
  exact ⟨n, List.mem_range.mp hn, rfl⟩

theorem batchKeys_fresh (f : Nat → String) (hf : Function.Injective f) (i : Nat) :
    ∀ s ∈ batchKeys f i, JValue.jstr s ∉ takeLast 800 (allKeysJ f (100 * i)) := by
  intro s hs hmem
  rcases List.mem_map.mp hs with ⟨j, hj, rfl⟩
  have hmem2 : JValue.jstr (f (100 * i + j)) ∈ allKeysJ f (100 * i) :=
    (takeLast_suffix 800 _).subset hmem
  rcases allKeysJ_mem hmem2 with ⟨n, hn, he⟩
  have : n = 100 * i + j := hf (jstr_injective he).symm
  omega

theorem seen_mk_keys (ks is : List JValue) : (SeenRecord.mk ks is).keys = ks := rfl

theorem seen_mk_ids (ks is : List JValue) : (SeenRecord.mk ks is).ids = is := rfl

/-! ## One round of save against a well-formed blob -/

theorem save_absent (k : String) (seen : SeenRecord) :
    saveSeenForMood true .absent k seen = .readable (.jobj [(k, entryValue seen)]) := rfl

theorem save_readable_obj (fs : List (String × JValue)) (k : String) (seen : SeenRecord) :
    saveSeenForMood true (.readable (.jobj fs)) k seen
      = .readable (.jobj (upsert fs k (entryValue seen))) := by
  rw [saveSeenForMood, saveSeenForMoodE]
  simp [jsTruthy, jsSetProp]

theorem load_of_blob (k : String) (ks is : List JValue) :
    loadSeenForMood
        (.readable (.jobj [(k, .jobj [("keys", .jarr ks), ("ids", .jarr is)])])) k
      = ⟨dedupFirst ks, dedupFirst is⟩ := by
  simp [loadSeenForMood, jsTruthy, jsGet, List.lookup]

theorem dedupFirst_stored (f : Nat → String) (hf : Function.Injective f) (m : Nat) :
    dedupFirst (takeLast 800 (allKeysJ f m)) = takeLast 800 (allKeysJ f m) := by
  have h1 : takeLast 800 (allKeysJ f m)
      = (takeLast 800 ((List.range m).map f)).map .jstr := by
    rw [allKeysJ, takeLast_map]
  rw [h1]
  apply dedupFirst_map_jstr
  refine List.Nodup.sublist ?_ ((List.nodup_range m).map hf)
  rw [takeLast]
  exact List.drop_sublist _ _

/-! ## The ten-round scenario -/

set_option maxRecDepth 4000 in
theorem runBatches_blob (f : Nat → String) (hf : Function.Injective f) (k : String) :
    ∀ i : Nat, runBatches f k (i+1)
      = .readable (.jobj [(k, .jobj
          [("keys", .jarr (takeLast 800 (allKeysJ f (100 * (i+1))))), ("ids", .jarr [])])]) := by
  intro i
  induction i with
  | zero =>
    rw [runBatches, runBatches]
    have hload : loadSeenForMood Blob.absent k = ⟨[], []⟩ := rfl
    rw [hload]
    have hkeys : (addKeys ⟨[], []⟩ (batchKeys f 0)).keys = (batchKeys f 0).map .jstr := by
      rw [addKeys_keys _ _ (fun s _ hmem => (List.not_mem_nil _) hmem) (batchKeys_nodup f hf 0)]
      rfl
    have hids : (addKeys ⟨[], []⟩ (batchKeys f 0)).ids = [] := addKeys_ids _ _
    rw [save_absent]
    rw [entryValue, hkeys, hids, takeLast_nil]
    have : (batchKeys f 0).map JValue.jstr = allKeysJ f 100 := by
      have := allKeysJ_add f 0 100
      rw [Nat.zero_add] at this
      rw [this, allKeysJ]
      simp [batchKeys]
    rw [this]
  | succ i ih =>
    rw [runBatches, ih, load_of_blob]
    rw [dedupFirst_stored f hf]
    have hdnil : dedupFirst ([] : List JValue) = [] := rfl
    rw [hdnil]
    have hfresh : ∀ s ∈ batchKeys f (i+1),
        JValue.jstr s ∉ (SeenRecord.mk (takeLast 800 (allKeysJ f (100 * (i+1)))) []).keys :=
      batchKeys_fresh f hf (i+1)
    rw [save_readable_obj, entryValue]
    rw [addKeys_keys _ _ hfresh (batchKeys_nodup f hf (i+1)), addKeys_ids, takeLast_nil]
    rw [seen_mk_keys, takeLast_append_takeLast]
    have hall : allKeysJ f (100 * (i+1)) ++ (batchKeys f (i+1)).map .jstr
        = allKeysJ f (100 * (i + 1 + 1)) := by
      have h2 := allKeysJ_add f (100 * (i+1)) 100
      rw [batchKeys]
      rw [show 100 * (i + 1 + 1) = 100 * (i + 1) + 100 by ring]
      rw [h2]
    rw [hall]
    rw [upsert]
    simp

set_option maxRecDepth 4000 in
/-- claim C2: a successful save stores, under the given mood key, exactly the last
800 keys and the last 800 ids of the record, in insertion order: both stored lists
are bounded by 800 and are suffixes of the in-memory sets, so eviction removes the
oldest entries first. Moreover, after ten generate rounds against one mood key, each
adding 100 fresh distinct keys, the stored key set is exactly the suffix of the 800
most recently added of the 1000 keys. -/
theorem claim2_bounded_history :
    (∀ (b : Blob) (k : String) (seen : SeenRecord), blobWF b →
      storedEntry (saveSeenForMood true b k seen) k
        = some (.jobj [("keys", .jarr (takeLast 800 seen.keys)),
                       ("ids", .jarr (takeLast 800 seen.ids))])
      ∧ (takeLast 800 seen.keys).length ≤ 800 ∧ (takeLast 800 seen.ids).length ≤ 800
      ∧ (takeLast 800 seen.keys).IsSuffix seen.keys
      ∧ (takeLast 800 seen.ids).IsSuffix seen.ids)
    ∧ (∀ (f : Nat → String) (k : String), Function.Injective f →
      (loadSeenForMood (runBatches f k 10) k).keys = takeLast 800 (allKeysJ f 1000)
      ∧ (loadSeenForMood (runBatches f k 10) k).keys.length = 800
      ∧ (loadSeenForMood (runBatches f k 10) k).keys.IsSuffix (allKeysJ f 1000)) := by
  constructor
  · intro b k seen hwf
    refine ⟨?_, takeLast_length_le _ _, takeLast_length_le _ _,
      takeLast_suffix _ _, takeLast_suffix _ _⟩
    rcases hwf with rfl | ⟨fs, rfl⟩
    · rw [save_absent, storedEntry, jsGet, entryValue]
      simp [List.lookup]
    · rw [save_readable_obj, storedEntry, jsGet, lookup_upsert_eq, entryValue]
  · intro f k hf
    have h10 : (10 : Nat) = 9 + 1 := by norm_num
    rw [h10, runBatches_blob f hf k 9, load_of_blob, seen_mk_keys]
    have hm : 100 * (9 + 1) = 1000 := by norm_num
    rw [hm, dedupFirst_stored f hf 1000]
    refine ⟨rfl, ?_, takeLast_suffix _ _⟩
    rw [takeLast, List.length_drop, allKeysJ, List.length_map, List.length_map,
      List.length_range]

theorem claim2_bounded_history_witness :
    blobWF .absent
    ∧ Function.Injective (fun n => String.mk (List.replicate n 'a'))
    ∧ storedEntry (saveSeenForMood true .absent "m__" ⟨[JValue.jstr "a"], []⟩) "m__"
        = some (.jobj [("keys", .jarr (takeLast 800 [JValue.jstr "a"])),
                       ("ids", .jarr (takeLast 800 ([] : List JValue)))])
    ∧ (loadSeenForMood (runBatches (fun n => String.mk (List.replicate n 'a')) "m__" 10)
        "m__").keys
      = takeLast 800 (allKeysJ (fun n => String.mk (List.replicate n 'a')) 1000) := by
  have hinj : Function.Injective (fun n => String.mk (List.replicate n 'a')) := by
    intro a b h
    have h2 := congrArg (fun s => s.data.length) h
    simpa using h2
  exact ⟨Or.inl rfl, hinj,
    (claim2_bounded_history.1 .absent "m__" ⟨[JValue.jstr "a"], []⟩ (Or.inl rfl)).1,
    (claim2_bounded_history.2 (fun n => String.mk (List.replicate n 'a')) "m__" hinj).1⟩
